import Mathlib

/-!
Verification development for the parallel document-indexing pipeline of this
repository.  The Lean definitions below are shallow embeddings of the Python
source:

* `agents/index_pipeline/pipeline.py`  (`IndexPipeline`: `_scan`,
  `_build_batches`, `_embed`, `reindex`, `_fingerprint`)
* `agents/index_pipeline/embed_worker.py`  (`EmbedWorker.embed`,
  `_embed_files`, `_embed_zip_entries`, `_read_zip_entry`, `_write_manifest`)
* `agents/rag_agent/indexer_workers.py`  (`finalize_index`, `EmbedWorker.embed`)
* `agents/slackbot/services/index_client.py`  (`IndexClient._run`, `_fan_out`)
* `scripts/index_rag.py`  (`main`)

File-system facts (directory listings, `stat` results, zip namelists) and the
external extraction/splitting/embedding capabilities are passed as explicit
environments; machine state that the Python code mutates (the manifest JSON,
the staged worker artifacts, the vector collection) is threaded as explicit
values.
-/

/-- Ceiling division on naturals: Lean rendering of Python's
`math.ceil(a / b)` for non-negative integers (the source only ever divides
non-negative quantities).  `cdiv a 0` is never used by the embedding: the
source raises `ZeroDivisionError` there, which the embedding models with
`Except.error`. -/
def cdiv (a b : Nat) : Nat := (a + b - 1) / b

theorem cdiv_pos (hb : 0 < b) (ha : 0 < a) : 0 < cdiv a b := by
  unfold cdiv
  have h1 : 1 * b ≤ a + b - 1 := by omega
  have h2 := (Nat.le_div_iff_mul_le hb).mpr h1
  omega

theorem le_mul_cdiv (hb : 0 < b) : a ≤ b * cdiv a b := by
  unfold cdiv
  have h1 := Nat.div_add_mod (a + b - 1) b
  have h2 : (a + b - 1) % b < b := Nat.mod_lt _ hb
  set t := b * ((a + b - 1) / b) with ht
  omega

theorem cdiv_le (hc : 0 < c) (h : a ≤ b * c) : cdiv a c ≤ b := by
  unfold cdiv
  have h1 : a + c - 1 < (b + 1) * c := by
    have : (b + 1) * c = b * c + c := by ring
    omega
  have h2 : (a + c - 1) / c < b + 1 := (Nat.div_lt_iff_lt_mul hc).mpr h1
  omega

/-- Structural worker for `chunksOf`; the fuel argument is an upper bound on
the list length, so the `0, _ :: _` clause is never reached from
`chunksOf`. -/
def chunksOfAux (cs : Nat) : Nat → List α → List (List α)
  | _, [] => []
  | 0, _ :: _ => []
  | f + 1, x :: xs => (x :: xs.take (cs - 1)) :: chunksOfAux cs f (xs.drop (cs - 1))

/-- Lean rendering of the Python slicing loop
`[l[i : i + cs] for i in range(0, len(l), cs)]` for a positive step `cs`.
(For `cs = 0` Python raises `ValueError`; the embedding never calls
`chunksOf` with step `0` — the planner errors out first.) -/
def chunksOf (cs : Nat) (l : List α) : List (List α) :=
  chunksOfAux cs l.length l

theorem chunksOfAux_fuel (cs : Nat) :
    ∀ (f₁ : Nat) (l : List α) (f₂ : Nat), l.length ≤ f₁ → l.length ≤ f₂ →
      chunksOfAux cs f₁ l = chunksOfAux cs f₂ l := by
  intro f₁
  induction f₁ with
  | zero =>
    intro l f₂ h₁ _
    have : l = [] := List.eq_nil_of_length_eq_zero (by omega)
    subst this
    cases f₂ <;> rfl
  | succ f ih =>
    intro l f₂ h₁ h₂
    cases l with
    | nil => cases f₂ <;> rfl
    | cons x xs =>
      cases f₂ with
      | zero => simp at h₂
      | succ f' =>
        show (x :: xs.take (cs - 1)) :: chunksOfAux cs f (xs.drop (cs - 1)) =
          (x :: xs.take (cs - 1)) :: chunksOfAux cs f' (xs.drop (cs - 1))
        have hd : (xs.drop (cs - 1)).length ≤ xs.length := by
          rw [List.length_drop]; omega
        simp only [List.length_cons] at h₁ h₂
        rw [ih (xs.drop (cs - 1)) f' (by omega) (by omega)]

theorem chunksOf_nil (cs : Nat) : chunksOf cs ([] : List α) = [] := rfl

theorem chunksOf_cons (cs : Nat) (x : α) (xs : List α) :
    chunksOf cs (x :: xs) =
      (x :: xs.take (cs - 1)) :: chunksOf cs (xs.drop (cs - 1)) := by
  show (x :: xs.take (cs - 1)) :: chunksOfAux cs xs.length (xs.drop (cs - 1)) = _
  unfold chunksOf
  rw [chunksOfAux_fuel cs xs.length (xs.drop (cs - 1)) (xs.drop (cs - 1)).length
    (by rw [List.length_drop]; omega) (le_refl _)]

theorem chunksOf_join (cs : Nat) (l : List α) : (chunksOf cs l).flatten = l := by
  match l with
  | [] => rw [chunksOf_nil]; rfl
  | x :: xs =>
    have ih := chunksOf_join cs (xs.drop (cs - 1))
    rw [chunksOf_cons]
    simp only [List.flatten_cons, ih]
    simp [List.take_append_drop]
termination_by l.length
decreasing_by simp [List.length_drop]; omega

theorem chunksOf_ne_nil (cs : Nat) (l : List α) (h : l ≠ []) :
    chunksOf cs l ≠ [] := by
  match l with
  | [] => exact absurd rfl h
  | x :: xs => rw [chunksOf_cons]; simp

theorem chunksOf_length (hcs : 0 < cs) (l : List α) :
    (chunksOf cs l).length = cdiv l.length cs := by
  match l with
  | [] =>
    rw [chunksOf_nil]
    simp only [List.length_nil]
    unfold cdiv
    exact (Nat.div_eq_of_lt (by omega)).symm
  | x :: xs =>
    have ih := chunksOf_length hcs (xs.drop (cs - 1))
    rw [chunksOf_cons]
    simp only [List.length_cons, ih, List.length_drop]
    unfold cdiv
    rcases le_or_lt (xs.length + 1) cs with hle | hlt
    · have e1 : xs.length - (cs - 1) + cs - 1 = cs - 1 := by omega
      rw [e1]
      have h0 : (cs - 1) / cs = 0 := Nat.div_eq_of_lt (by omega)
      have h1 : (xs.length + 1 + cs - 1) / cs = 1 := by
        refine Nat.div_eq_of_lt_le (by omega) (by omega)
      rw [h0, h1]
    · have h3 := Nat.add_div_right (xs.length - (cs - 1) + cs - 1) hcs
      have h2 : xs.length - (cs - 1) + cs - 1 + cs = xs.length + 1 + cs - 1 := by
        omega
      rw [← h2, h3]
termination_by l.length
decreasing_by simp [List.length_drop]; omega

theorem chunksOf_count_le (hn : 0 < n) (l : List α) :
    (chunksOf (cdiv l.length n) l).length ≤ n := by
  match l with
  | [] => rw [chunksOf_nil]; simp
  | x :: xs =>
    have hlen : 0 < (x :: xs).length := by simp
    have hcs : 0 < cdiv (x :: xs).length n := cdiv_pos hn hlen
    rw [chunksOf_length hcs]
    exact cdiv_le hcs (le_mul_cdiv hn)

theorem mem_of_mem_chunksOf {cs : Nat} {l : List α} {c : List α}
    (hc : c ∈ chunksOf cs l) {x : α} (hx : x ∈ c) : x ∈ l := by
  have h := chunksOf_join cs l
  rw [← h]
  exact List.mem_flatten.mpr ⟨c, hc, hx⟩

/-- A manifest is the JSON object `{name: fingerprint}`; embedded as an
association list with Python-`dict` update semantics (`mput`). -/
abbrev Manifest := List (String × String)

/-- `m[k] = v` on a Python dict: replace in place if the key exists,
append otherwise. -/
def mput : Manifest → String → String → Manifest
  | [], k, v => [(k, v)]
  | (k', v') :: rest, k, v =>
    if k' = k then (k, v) :: rest else (k', v') :: mput rest k v

theorem lookup_mput_self (m : Manifest) (k v : String) :
    (mput m k v).lookup k = some v := by
  induction m with
  | nil => simp [mput, List.lookup]
  | cons kv rest ih =>
    obtain ⟨a, b⟩ := kv
    by_cases hak : a = k
    · simp [mput, if_pos hak, List.lookup]
    · have hne : (k == a) = false := by
        simp only [beq_eq_false_iff_ne, ne_eq]
        exact fun hk => hak hk.symm
      simp [mput, if_neg hak, List.lookup, hne, ih]

theorem lookup_mput_ne (m : Manifest) {k k' : String} (h : k' ≠ k) (v : String) :
    (mput m k v).lookup k' = m.lookup k' := by
  have hkk : (k' == k) = false := by simp only [beq_eq_false_iff_ne, ne_eq]; exact h
  induction m with
  | nil => simp [mput, List.lookup, hkk]
  | cons kv rest ih =>
    obtain ⟨a, b⟩ := kv
    by_cases hak : a = k
    · subst hak
      simp [mput, List.lookup, hkk]
    · by_cases hk : k' = a
      · subst hk
        simp [mput, if_neg hak, List.lookup]
      · have hka : (k' == a) = false := by
          simp only [beq_eq_false_iff_ne, ne_eq]; exact hk
        simp [mput, if_neg hak, List.lookup, hka, ih]

/-- Digit value of a decimal digit character; inverse of `Nat.digitChar` on
`0..9`. -/
def charVal (c : Char) : Nat := c.toNat - '0'.toNat

theorem charVal_digitChar {d : Nat} (h : d < 10) :
    charVal (Nat.digitChar d) = d := by
  interval_cases d <;> decide

theorem digitChar_ne_colon (d : Nat) : Nat.digitChar d ≠ ':' := by
  by_cases h16 : d < 16
  · interval_cases d <;> decide
  · have hstar : Nat.digitChar d = '*' := by
      unfold Nat.digitChar
      repeat rw [if_neg (by omega)]
    rw [hstar]
    decide

/-- Most-significant-first evaluation of a decimal digit string. -/
def lval : List Char → Nat
  | [] => 0
  | c :: cs => charVal c * 10 ^ cs.length + lval cs

theorem lval_toDigitsCore :
    ∀ (f n : Nat) (ds : List Char), n < 10 ^ f →
      lval (Nat.toDigitsCore 10 f n ds) = n * 10 ^ ds.length + lval ds := by
  intro f
  induction f with
  | zero =>
    intro n ds h
    have hn : n = 0 := by simpa using h
    subst hn
    simp [Nat.toDigitsCore]
  | succ f ih =>
    intro n ds h
    show lval (Nat.toDigitsCore 10 (f + 1) n ds) = n * 10 ^ ds.length + lval ds
    rw [Nat.toDigitsCore]
    by_cases h0 : n / 10 = 0
    · simp only [h0, if_pos rfl]
      have hlt : n < 10 := by omega
      have : n % 10 = n := Nat.mod_eq_of_lt hlt
      simp [lval, this, charVal_digitChar hlt]
    · simp only [if_neg h0]
      have hdiv : n / 10 < 10 ^ f := by
        have h1 : n < 10 ^ f * 10 := by
          rw [← pow_succ]
          exact h
        exact (Nat.div_lt_iff_lt_mul (by omega)).mpr h1
      rw [ih (n / 10) _ hdiv]
      have hm : n % 10 < 10 := Nat.mod_lt _ (by omega)
      simp only [lval, List.length_cons, charVal_digitChar hm]
      rw [pow_succ]
      conv_rhs => rw [← Nat.div_add_mod n 10]
      ring

theorem lval_toDigits (n : Nat) : lval (Nat.toDigits 10 n) = n := by
  unfold Nat.toDigits
  have h : n < 10 ^ (n + 1) := by
    calc n < 2 ^ n := Nat.lt_two_pow n
    _ ≤ 10 ^ n := Nat.pow_le_pow_left (by omega) n
    _ ≤ 10 ^ (n + 1) := Nat.pow_le_pow_right (by omega) (by omega)
  rw [lval_toDigitsCore (n + 1) n [] h]
  simp [lval]

theorem toDigitsCore_no_colon :
    ∀ (f n : Nat) (ds : List Char), ':' ∉ ds →
      ':' ∉ Nat.toDigitsCore 10 f n ds := by
  intro f
  induction f with
  | zero => intro n ds h; simpa [Nat.toDigitsCore] using h
  | succ f ih =>
    intro n ds h
    rw [Nat.toDigitsCore]
    by_cases h0 : n / 10 = 0
    · simp only [h0, if_pos rfl]
      intro hmem
      rcases List.mem_cons.mp hmem with he | he
      · exact digitChar_ne_colon _ he.symm
      · exact h he
    · simp only [if_neg h0]
      apply ih
      intro hmem
      rcases List.mem_cons.mp hmem with he | he
      · exact digitChar_ne_colon _ he.symm
      · exact h he

theorem toDigits_no_colon (n : Nat) : ':' ∉ Nat.toDigits 10 n :=
  toDigitsCore_no_colon (n + 1) n [] (by simp)

theorem repr_data (n : Nat) : (Nat.repr n).data = Nat.toDigits 10 n := rfl

theorem repr_injective {m n : Nat} (h : Nat.repr m = Nat.repr n) : m = n := by
  have hd : Nat.toDigits 10 m = Nat.toDigits 10 n := by
    have := congrArg String.data h
    simpa [repr_data] using this
  have := congrArg lval hd
  rwa [lval_toDigits, lval_toDigits] at this

/-- If two colon-free character lists are joined around a colon and the
results agree, the pieces agree. -/
theorem colon_append_inj :
    ∀ (l1 l1' l2 l2' : List Char), ':' ∉ l1 → ':' ∉ l1' →
      l1 ++ ':' :: l2 = l1' ++ ':' :: l2' → l1 = l1' ∧ l2 = l2' := by
  intro l1
  induction l1 with
  | nil =>
    intro l1' l2 l2' _ h1' heq
    cases l1' with
    | nil => simpa using heq
    | cons c cs =>
      exfalso
      simp only [List.nil_append, List.cons_append, List.cons.injEq] at heq
      exact h1' (heq.1 ▸ List.mem_cons_self c cs)
  | cons c cs ih =>
    intro l1' l2 l2' h1 h1' heq
    cases l1' with
    | nil =>
      exfalso
      simp only [List.cons_append, List.nil_append, List.cons.injEq] at heq
      exact h1 (heq.1 ▸ List.mem_cons_self c cs)
    | cons c' cs' =>
      simp only [List.cons_append, List.cons.injEq] at heq
      have hcs : ':' ∉ cs := fun hm => h1 (List.mem_cons_of_mem _ hm)
      have hcs' : ':' ∉ cs' := fun hm => h1' (List.mem_cons_of_mem _ hm)
      obtain ⟨ha, hb⟩ := ih cs' l2 l2' hcs hcs' heq.2
      exact ⟨by rw [heq.1, ha], hb⟩

/-- Python's `str.endswith(suffix)`: character-level suffix test.  (Defined
over the character list so that it evaluates by kernel reduction; Lean's
built-in `String.endsWith` recurses by well-founded byte positions.) -/
def endsWithS (s suffix : String) : Bool :=
  List.isSuffixOf suffix.data s.data

instance {e a : Type} [DecidableEq e] [DecidableEq a] : DecidableEq (Except e a)
  | Except.error x, Except.error y =>
    if h : x = y then isTrue (by rw [h]) else isFalse (fun hc => h (Except.error.inj hc))
  | Except.error _, Except.ok _ => isFalse (fun hc => Except.noConfusion hc)
  | Except.ok _, Except.error _ => isFalse (fun hc => Except.noConfusion hc)
  | Except.ok x, Except.ok y =>
    if h : x = y then isTrue (by rw [h]) else isFalse (fun hc => h (Except.ok.inj hc))

/-- File-system facts read by the pipeline.  `docs` is the sorted listing of
regular files in the documents directory (`self._docs_dir.iterdir()`,
filtered to files and sorted); since all documents live in one flat
directory, a file is identified by its base name, so `str(p)` and `p.name`
coincide in the model.  `mtimeNs`/`size` embed `path.stat().st_mtime_ns` and
`.st_size`; `entries` embeds `zipfile.ZipFile(p).namelist()`. -/
structure FS where
  docs : List String
  mtimeNs : String → Nat
  size : String → Nat
  entries : String → List String

/-- `IndexPipeline._fingerprint`: `f"{stat.st_mtime_ns}:{stat.st_size}"`. -/
def fingerprint (fs : FS) (p : String) : String :=
  Nat.repr (fs.mtimeNs p) ++ ":" ++ Nat.repr (fs.size p)

theorem fingerprint_data (fs : FS) (p : String) :
    (fingerprint fs p).data =
      Nat.toDigits 10 (fs.mtimeNs p) ++ ':' :: Nat.toDigits 10 (fs.size p) := by
  unfold fingerprint
  rw [String.append_assoc]
  rw [String.data_append]
  rw [String.data_append]
  rfl

/-- The `mtime_ns:size` encoding is injective: two stat results produce the
same fingerprint string only if both the mtime and the size agree.  This is
the property that lets the scanner detect any mtime or size change. -/
theorem fingerprint_inj {fs fs' : FS} {p p' : String}
    (h : fingerprint fs p = fingerprint fs' p') :
    fs.mtimeNs p = fs'.mtimeNs p' ∧ fs.size p = fs'.size p' := by
  have hd := congrArg String.data h
  rw [fingerprint_data, fingerprint_data] at hd
  obtain ⟨h1, h2⟩ :=
    colon_append_inj _ _ _ _ (toDigits_no_colon _) (toDigits_no_colon _) hd
  constructor
  · have := congrArg lval h1
    rwa [lval_toDigits, lval_toDigits] at this
  · have := congrArg lval h2
    rwa [lval_toDigits, lval_toDigits] at this

/-- `IndexPipeline._scan` (pipeline.py lines 60–76): reload the volume, list
the documents directory, and keep exactly the files whose manifest
fingerprint is absent or stale — or everything when `force` is set.  A
missing documents directory is modelled as `fs.docs = []`.  The function is
pure: it returns the selection and touches neither the manifest nor the
store. -/
def scan (fs : FS) (force : Bool) (m : Manifest) : List String :=
  fs.docs.filter (fun p => force || decide (m.lookup p ≠ some (fingerprint fs p)))

/-- A unit of distributable work, `embed_worker.py`'s two work-item shapes:
`{"type": "files", "paths": [...]}` and
`{"type": "zip_entries", "zip_path": ..., "entries": [...]}`. -/
inductive WorkItem where
  | files (paths : List String)
  | zipEntries (zipPath : String) (entries : List String)
deriving DecidableEq, Repr

/-- The non-directory entries of an archive:
`[n for n in zf.namelist() if not n.endswith("/")]`. -/
def filtEntries (fs : FS) (z : String) : List String :=
  (fs.entries z).filter (fun e => !endsWithS e "/")

/-- The work items carved out of one archive: its filtered entries, sliced by
ceiling division over the pool size. -/
def zipSlices (n : Nat) (fs : FS) (z : String) : List WorkItem :=
  (chunksOf (cdiv (filtEntries fs z).length n) (filtEntries fs z)).map
    (WorkItem.zipEntries z)

/-- One iteration of the `for zip_path in zips` loop of `_build_batches`.
`math.ceil(len(entries) / n)` raises `ZeroDivisionError` when `n = 0`, and
`range(0, len(entries), 0)` raises `ValueError` when the filtered entry list
is empty (step 0); both are modelled as `Except.error`. -/
def addZip (n : Nat) (fs : FS) (acc : List WorkItem × Nat) (z : String) :
    Except Unit (List WorkItem × Nat) :=
  if n = 0 then Except.error () else
  let es := filtEntries fs z
  if es.isEmpty then Except.error ()
  else Except.ok (acc.1 ++ zipSlices n fs z, acc.2 + es.length)

/-- The `if regular:` block of `_build_batches`: slices for the non-zip
files (`math.ceil(len(regular) / n)` raises `ZeroDivisionError` for a
zero-sized pool when there are regular files). -/
def regularStart (n : Nat) (regular : List String) :
    Except Unit (List WorkItem × Nat) :=
  if regular.isEmpty then Except.ok ([], 0)
  else if n = 0 then Except.error ()
  else Except.ok
    ((chunksOf (cdiv regular.length n) regular).map WorkItem.files,
      regular.length)

/-- `IndexPipeline._build_batches` (pipeline.py lines 96–132): split the
selected files into per-worker work items.  Regular files are sliced by
count; each `.zip` is expanded and its entries sliced across the pool.  `n`
is `N_WORKERS * WORKERS_PER_GPU` (the source passes 32).  Returns the work
items and the total document count, or `Except.error` where the Python
raises. -/
def buildBatches (n : Nat) (fs : FS) (files : List String) :
    Except Unit (List WorkItem × Nat) :=
  match regularStart n (files.filter (fun f => !endsWithS f ".zip")) with
  | Except.error e => Except.error e
  | Except.ok acc =>
    (files.filter (fun f => endsWithS f ".zip")).foldlM (addZip n fs) acc

/-- `N_WORKERS` from `agents/index_pipeline/config.py`. -/
def N_WORKERS : Nat := 8

/-- `WORKERS_PER_GPU` from `agents/index_pipeline/config.py`. -/
def WORKERS_PER_GPU : Nat := 4

theorem addZip_ok (hn : 0 < n) (fs : FS) (acc : List WorkItem × Nat)
    (z : String) (hz : filtEntries fs z ≠ []) :
    addZip n fs acc z =
      Except.ok (acc.1 ++ zipSlices n fs z, acc.2 + (filtEntries fs z).length) := by
  unfold addZip
  rw [if_neg (by omega)]
  simp only [List.isEmpty_iff]
  rw [if_neg hz]

theorem foldlM_addZip_ok (hn : 0 < n) (fs : FS) :
    ∀ (zs : List String) (acc : List WorkItem × Nat),
      (∀ z ∈ zs, filtEntries fs z ≠ []) →
      zs.foldlM (addZip n fs) acc =
        Except.ok (acc.1 ++ zs.flatMap (zipSlices n fs),
          acc.2 + (zs.map (fun z => (filtEntries fs z).length)).sum) := by
  intro zs
  induction zs with
  | nil =>
    intro acc _
    show Except.ok acc = _
    simp
  | cons z rest ih =>
    intro acc hz
    rw [List.foldlM_cons]
    rw [addZip_ok hn fs acc z (hz z (by simp))]
    show rest.foldlM (addZip n fs) _ = _
    rw [ih _ (fun z' hz' => hz z' (List.mem_cons_of_mem _ hz'))]
    simp [List.append_assoc, List.flatMap_cons]
    omega

/-- Normal-path characterisation of the batch planner: when the pool size is
positive and every selected archive has at least one non-directory entry,
`_build_batches` succeeds and produces exactly the regular-file slices
followed by each archive's entry slices, with the document count
`len(regular) + Σ len(entries)`. -/
theorem buildBatches_ok (hn : 0 < n) (fs : FS) (files : List String)
    (hz : ∀ z ∈ files, endsWithS z ".zip" = true → filtEntries fs z ≠ []) :
    buildBatches n fs files =
      Except.ok
        (((chunksOf (cdiv (files.filter (fun f => !endsWithS f ".zip")).length n)
            (files.filter (fun f => !endsWithS f ".zip"))).map WorkItem.files)
          ++ (files.filter (fun f => endsWithS f ".zip")).flatMap (zipSlices n fs),
        (files.filter (fun f => !endsWithS f ".zip")).length
          + ((files.filter (fun f => endsWithS f ".zip")).map
              (fun z => (filtEntries fs z).length)).sum) := by
  have hzs : ∀ z ∈ files.filter (fun f => endsWithS f ".zip"),
      filtEntries fs z ≠ [] := by
    intro z hzz
    have := List.of_mem_filter hzz
    exact hz z (List.mem_of_mem_filter hzz) this
  have hstart : regularStart n (files.filter (fun f => !endsWithS f ".zip")) =
      Except.ok
        ((chunksOf (cdiv (files.filter (fun f => !endsWithS f ".zip")).length n)
            (files.filter (fun f => !endsWithS f ".zip"))).map WorkItem.files,
          (files.filter (fun f => !endsWithS f ".zip")).length) := by
    unfold regularStart
    cases hre : (files.filter (fun f => !endsWithS f ".zip")).isEmpty with
    | true =>
      have hnil : files.filter (fun f => !endsWithS f ".zip") = [] :=
        List.isEmpty_iff.mp hre
      rw [if_pos rfl, hnil]
      simp [chunksOf_nil]
    | false =>
      rw [if_neg Bool.false_ne_true]
      rw [if_neg (by omega : ¬n = 0)]
  unfold buildBatches
  rw [hstart]
  show (files.filter (fun f => endsWithS f ".zip")).foldlM (addZip n fs) _ = _
  rw [foldlM_addZip_ok hn fs _ _ hzs]

/-- External capabilities of one `EmbedWorker` (embed_worker.py): document
loading via `SimpleDirectoryReader` (`readFile`, which may raise), zip entry
extraction (`readZip`, where `None` models the caught exception of
`_read_zip_entry`), and the chunk count that the external splitter produces
for a batch of document texts (`nchunks`, the length of
`get_nodes_from_documents`). -/
structure XEnv where
  readFile : String → Except Unit (List String)
  readZip : String → String → Option String
  nchunks : List String → Nat

/-- Python's `not text or not text.strip()`: the empty string and
whitespace-only strings are blank. -/
def isBlank (t : String) : Bool := t.data.all Char.isWhitespace

/-- `EMBED_BATCH_SIZE` from `agents/index_pipeline/config.py`. -/
def EMBED_BATCH_SIZE : Nat := 1024

/-- The entry texts that survive `_embed_zip_entries`' per-entry filter:
unreadable entries (`_read_zip_entry` returned `None`) and blank texts are
skipped. -/
def keptTexts (env : XEnv) (z : String) (entries : List String) : List String :=
  entries.filterMap (fun name =>
    match env.readZip z name with
    | none => none
    | some t => if isBlank t then none else some t)

/-- `EmbedWorker._embed_zip_entries` (embed_worker.py lines 112–136): stream
the entry slice, batch surviving documents in groups of `EMBED_BATCH_SIZE`,
and chunk-and-embed each group; returns the chunk total.  (The archive was
already opened successfully by the planner in the same run; archive-open
failure is outside this model.) -/
def embedZipEntries (env : XEnv) (z : String) (entries : List String) : Nat :=
  ((chunksOf EMBED_BATCH_SIZE (keptTexts env z entries)).map env.nchunks).sum

/-- `EmbedWorker._embed_files` (embed_worker.py lines 94–103): process the
regular files one at a time; `_load_file` has no exception handler, so a
reader failure propagates. -/
def embedFiles (env : XEnv) (paths : List String) : Except Unit Nat :=
  paths.foldlM (fun acc p => (env.readFile p).map (fun docs => acc + env.nchunks docs)) 0

/-- `EmbedWorker.embed` (embed_worker.py lines 71–90), restricted to its
chunk accounting: dispatch on the work-item type and return
`(worker_id, chunk_count)`, or propagate the error. -/
def embed (env : XEnv) (work : WorkItem) (workerId : Nat) :
    Except Unit (Nat × Nat) :=
  match work with
  | WorkItem.files ps => (embedFiles env ps).map (fun t => (workerId, t))
  | WorkItem.zipEntries z es => Except.ok (workerId, embedZipEntries env z es)

/-- `EmbedWorker._write_manifest` (embed_worker.py lines 178–189): the
worker-scoped partial manifest.  `work.get("paths", [work["zip_path"]])`
fingerprints each regular path of a files item, and the archive file itself
for a zip-entries item; in the flat-directory model `Path(p).name = p`. -/
def workerManifest (fs : FS) (work : WorkItem) : List (String × String) :=
  match work with
  | WorkItem.files ps => ps.map (fun p => (p, fingerprint fs p))
  | WorkItem.zipEntries z _ => [(z, fingerprint fs z)]

/-- Folding one partial manifest into a manifest, entry by entry
(`dict` update). -/
def mupdate (m : Manifest) (pm : List (String × String)) : Manifest :=
  pm.foldl (fun acc kv => mput acc kv.1 kv.2) m

/-- Modelled from the spec: the merge step of the `agents.index_pipeline`
package's `finalize_index` (imported by pipeline.py line 11 but not present
under `src/`; only its caller `_finalize` is).  Following spec §4.4 and the
`EmbedWorker` docstring ("Each worker writes its own manifest file
(manifest-worker-id.json) … The finalize step merges these into
manifest.json"), the staged worker manifests are folded into the
authoritative manifest. -/
def mergeStaged (m : Manifest) (staged : List (List (String × String))) : Manifest :=
  staged.foldl mupdate m

/-- `k` is a key of the partial manifest `pm`. -/
def hasKey (pm : List (String × String)) (k : String) : Prop :=
  k ∈ pm.map Prod.fst

instance (pm : List (String × String)) (k : String) : Decidable (hasKey pm k) := by
  unfold hasKey
  infer_instance

theorem lookup_mupdate_not_mem (pm : List (String × String)) (m : Manifest)
    {k : String} (hk : ¬ hasKey pm k) :
    (mupdate m pm).lookup k = m.lookup k := by
  induction pm generalizing m with
  | nil => rfl
  | cons kv rest ih =>
    have hk1 : kv.1 ≠ k := by
      intro he
      exact hk (by simp [hasKey, he.symm])
    have hkrest : ¬ hasKey rest k := by
      intro hr
      exact hk (by simp [hasKey] at hr ⊢; right; exact hr)
    show (mupdate (mput m kv.1 kv.2) rest).lookup k = m.lookup k
    rw [ih _ hkrest]
    exact lookup_mput_ne m (fun he => hk1 he.symm) kv.2

theorem lookup_mupdate_mem (F : String → String) (pm : List (String × String))
    (m : Manifest) {k : String}
    (hpm : ∀ kv ∈ pm, kv.2 = F kv.1) (hk : hasKey pm k) :
    (mupdate m pm).lookup k = some (F k) := by
  induction pm generalizing m with
  | nil => exact absurd hk (by simp [hasKey])
  | cons kv rest ih =>
    show (mupdate (mput m kv.1 kv.2) rest).lookup k = some (F k)
    by_cases hrest : hasKey rest k
    · exact ih _ (fun kv' h' => hpm kv' (List.mem_cons_of_mem _ h')) hrest
    · have hk0 : k ∈ kv.1 :: rest.map Prod.fst := by
        have h' := hk
        unfold hasKey at h'
        rwa [List.map_cons] at h'
      have hk1 : kv.1 = k := by
        rcases List.mem_cons.mp hk0 with h | h
        · exact h.symm
        · exact absurd (show hasKey rest k from h) hrest
      rw [lookup_mupdate_not_mem rest _ hrest]
      have hv : kv.2 = F kv.1 := hpm kv (by simp)
      rw [hk1] at hv ⊢
      rw [hv, lookup_mput_self]

theorem lookup_mergeStaged_not_mem (staged : List (List (String × String)))
    (m : Manifest) {k : String} (hk : ∀ pm ∈ staged, ¬ hasKey pm k) :
    (mergeStaged m staged).lookup k = m.lookup k := by
  induction staged generalizing m with
  | nil => rfl
  | cons pm rest ih =>
    show (mergeStaged (mupdate m pm) rest).lookup k = m.lookup k
    rw [ih _ (fun pm' h' => hk pm' (List.mem_cons_of_mem _ h'))]
    exact lookup_mupdate_not_mem pm m (hk pm (by simp))

theorem lookup_mergeStaged_mem (F : String → String)
    (staged : List (List (String × String))) (m : Manifest) {k : String}
    (hpairs : ∀ pm ∈ staged, ∀ kv ∈ pm, kv.2 = F kv.1)
    (hk : ∃ pm ∈ staged, hasKey pm k) :
    (mergeStaged m staged).lookup k = some (F k) := by
  induction staged generalizing m with
  | nil => simp at hk
  | cons pm rest ih =>
    show (mergeStaged (mupdate m pm) rest).lookup k = some (F k)
    by_cases hrest : ∃ pm' ∈ rest, hasKey pm' k
    · exact ih _ (fun pm' h' => hpairs pm' (List.mem_cons_of_mem _ h')) hrest
    · have hnone : ∀ pm' ∈ rest, ¬ hasKey pm' k := by
        intro pm' h' hkk
        exact hrest ⟨pm', h', hkk⟩
      rw [lookup_mergeStaged_not_mem rest _ hnone]
      have hpm : hasKey pm k := by
        rcases hk with ⟨pm', hpm', hkk⟩
        rcases List.mem_cons.mp hpm' with he | he
        · exact he ▸ hkk
        · exact absurd ⟨pm', he, hkk⟩ hrest
      exact lookup_mupdate_mem F pm m (hpairs pm (by simp)) hpm

theorem workerManifest_pairs (fs : FS) (w : WorkItem) :
    ∀ kv ∈ workerManifest fs w, kv.2 = fingerprint fs kv.1 := by
  cases w with
  | files ps =>
    intro kv hkv
    simp only [workerManifest, List.mem_map] at hkv
    obtain ⟨p, _, hp⟩ := hkv
    rw [← hp]
  | zipEntries z es =>
    intro kv hkv
    simp only [workerManifest, List.mem_singleton] at hkv
    rw [hkv]

/-- Outcome of the dispatched worker with id `iw.1` on item `iw.2`: either an
infrastructure failure (`wfail`, the exception captured by
`EmbedWorker().embed.map(..., return_exceptions=True)`) or the result of
`EmbedWorker.embed` itself. -/
def workerOutcome (env : XEnv) (wfail : Nat → Bool) (iw : Nat × WorkItem) :
    Except Unit (Nat × Nat) :=
  if wfail iw.1 then Except.error () else embed env iw.2 iw.1

/-- The worker-scoped partial manifests present after the embed phase: only
workers that ran to completion reach `_write_manifest`; a raising worker
stages nothing. -/
def stagedManifests (fs : FS) (env : XEnv) (wfail : Nat → Bool)
    (batches : List WorkItem) : List (List (String × String)) :=
  batches.enum.filterMap (fun iw =>
    (workerOutcome env wfail iw).toOption.map (fun _ => workerManifest fs iw.2))

/-- Total chunk count over the successful workers, as accumulated by
`IndexPipeline._embed`'s result loop. -/
def chunksTotal (env : XEnv) (wfail : Nat → Bool) (batches : List WorkItem) : Nat :=
  (batches.enum.filterMap (fun iw =>
    (workerOutcome env wfail iw).toOption.map (fun r => r.2))).sum

/-- `IndexPipeline._empty_result` (pipeline.py lines 143–150): the message
returned when the scan selects nothing.  A missing documents directory is
`fs.docs = []`, for which the `any` below is vacuously false, collapsing the
two `"No documents found"` branches of the source. -/
def emptyResult (fs : FS) (m : Manifest) : String :=
  if fs.docs.any (fun p => (m.lookup p).isSome) then
    "All documents already indexed. Share new files or run reindex --force to rebuild."
  else
    "No documents found in /data/rag/docs/. Share files via Slack first."

/-- Modelled from the spec: the `agents.index_pipeline` package's
`finalize_index(force, doc_count)` (called by `IndexPipeline._finalize`,
pipeline.py line 137) is not under `src/`.  Per spec §4.4 and the
`EmbedWorker` docstring it merges the staged worker manifests into the
authoritative manifest (`mergeStaged`), removes the staging artifacts, and
returns a human-readable summary. -/
def finalizePipeline (force : Bool) (docCount : Nat) (m : Manifest)
    (staged : List (List (String × String))) : String × Manifest :=
  ("Indexed " ++ Nat.repr docCount ++ " document(s).", mergeStaged m staged)

/-- The durable state the pipeline path reads and writes: the file system
facts and the authoritative manifest. -/
structure PState where
  fs : FS
  manifest : Manifest

/-- The observables of one `reindex` run: the returned summary string and
the number of chunks produced (and upserted) by this run's workers. -/
structure RunOut where
  summary : String
  newChunks : Nat
deriving DecidableEq, Repr

/-- `IndexPipeline.reindex` (pipeline.py lines 30–56): scan, return the
empty-result message if nothing is selected, otherwise plan batches
(planner exceptions propagate, aborting the run), dispatch the workers
(failures swallowed per item), and finalize. -/
def reindex (n : Nat) (env : XEnv) (wfail : Nat → Bool) (force : Bool)
    (st : PState) : Except Unit (RunOut × PState) :=
  if (scan st.fs force st.manifest).isEmpty then
    Except.ok ({ summary := emptyResult st.fs st.manifest, newChunks := 0 }, st)
  else
    match buildBatches n st.fs (scan st.fs force st.manifest) with
    | Except.error e => Except.error e
    | Except.ok bd =>
      Except.ok
        ({ summary :=
            (finalizePipeline force bd.2 st.manifest
              (stagedManifests st.fs env wfail bd.1)).1,
           newChunks := chunksTotal env wfail bd.1 },
         { st with
            manifest :=
              (finalizePipeline force bd.2 st.manifest
                (stagedManifests st.fs env wfail bd.1)).2 })

/-- The work item `w` covers the input file `k`: a files item through its
path list, a zip-entries item through its archive. -/
def itemHasFile (w : WorkItem) (k : String) : Prop :=
  match w with
  | WorkItem.files ps => k ∈ ps
  | WorkItem.zipEntries z _ => k = z

theorem hasKey_workerManifest (fs : FS) (w : WorkItem) (k : String) :
    hasKey (workerManifest fs w) k ↔ itemHasFile w k := by
  cases w with
  | files ps =>
    simp [hasKey, workerManifest, itemHasFile, List.map_map, Function.comp]
  | zipEntries z es =>
    simp [hasKey, workerManifest, itemHasFile]

theorem mem_scan_iff (fs : FS) (force : Bool) (m : Manifest) (p : String) :
    p ∈ scan fs force m ↔
      p ∈ fs.docs ∧ (force = true ∨ m.lookup p ≠ some (fingerprint fs p)) := by
  unfold scan
  rw [List.mem_filter]
  cases force with
  | true => simp
  | false => simp

theorem stagedManifests_pairs (fs : FS) (env : XEnv) (wfail : Nat → Bool)
    (batches : List WorkItem) :
    ∀ pm ∈ stagedManifests fs env wfail batches,
      ∀ kv ∈ pm, kv.2 = fingerprint fs kv.1 := by
  intro pm hpm
  unfold stagedManifests at hpm
  obtain ⟨iw, _, hf⟩ := List.mem_filterMap.mp hpm
  rcases h : (workerOutcome env wfail iw).toOption with _ | v
  · rw [h] at hf; simp at hf
  · rw [h] at hf
    simp only [Option.map_some', Option.some.injEq] at hf
    rw [← hf]
    exact workerManifest_pairs fs iw.2

theorem snd_mem_of_mem_enumFrom {l : List α} :
    ∀ {s : Nat} {iw : Nat × α}, iw ∈ l.enumFrom s → iw.2 ∈ l := by
  induction l with
  | nil => intro s iw h; simp [List.enumFrom] at h
  | cons x xs ih =>
    intro s iw h
    rw [List.enumFrom] at h
    rcases List.mem_cons.mp h with he | he
    · rw [he]; simp
    · exact List.mem_cons_of_mem _ (ih he)

theorem stagedManifests_items (fs : FS) (env : XEnv) (wfail : Nat → Bool)
    (batches : List WorkItem) :
    ∀ pm ∈ stagedManifests fs env wfail batches,
      ∃ w ∈ batches, pm = workerManifest fs w := by
  intro pm hpm
  unfold stagedManifests at hpm
  obtain ⟨iw, hiw, hf⟩ := List.mem_filterMap.mp hpm
  rcases h : (workerOutcome env wfail iw).toOption with _ | v
  · rw [h] at hf; simp at hf
  · rw [h] at hf
    simp only [Option.map_some', Option.some.injEq] at hf
    exact ⟨iw.2, snd_mem_of_mem_enumFrom hiw, hf.symm⟩

/-- The batch list `_build_batches` produces on its normal path: regular-file
slices followed by each archive's entry slices. -/
def canonicalBatches (n : Nat) (fs : FS) (files : List String) : List WorkItem :=
  (chunksOf (cdiv (files.filter (fun f => !endsWithS f ".zip")).length n)
      (files.filter (fun f => !endsWithS f ".zip"))).map WorkItem.files
    ++ (files.filter (fun f => endsWithS f ".zip")).flatMap (zipSlices n fs)

/-- The document count `_build_batches` reports: regular files plus archive
entries. -/
def canonicalCount (fs : FS) (files : List String) : Nat :=
  (files.filter (fun f => !endsWithS f ".zip")).length
    + ((files.filter (fun f => endsWithS f ".zip")).map
        (fun z => (filtEntries fs z).length)).sum

theorem buildBatches_eq_canonical (hn : 0 < n) (fs : FS) (files : List String)
    (hz : ∀ z ∈ files, endsWithS z ".zip" = true → filtEntries fs z ≠ []) :
    buildBatches n fs files =
      Except.ok (canonicalBatches n fs files, canonicalCount fs files) := by
  unfold canonicalBatches canonicalCount
  exact buildBatches_ok hn fs files hz

/-- Every input file is covered by at least one produced work item. -/
theorem batches_cover (hn : 0 < n) (fs : FS) (files : List String)
    (hz : ∀ z ∈ files, endsWithS z ".zip" = true → filtEntries fs z ≠ []) :
    ∀ p ∈ files, ∃ w ∈ canonicalBatches n fs files, itemHasFile w p := by
  intro p hp
  unfold canonicalBatches
  cases hpe : endsWithS p ".zip" with
  | true =>
    have hpz : p ∈ files.filter (fun f => endsWithS f ".zip") :=
      List.mem_filter.mpr ⟨hp, hpe⟩
    have hent : filtEntries fs p ≠ [] := hz p hp hpe
    have hslices : zipSlices n fs p ≠ [] := by
      unfold zipSlices
      intro hcon
      exact (chunksOf_ne_nil _ _ hent) (List.map_eq_nil_iff.mp hcon)
    obtain ⟨w, hw⟩ := List.exists_mem_of_ne_nil _ hslices
    refine ⟨w, List.mem_append_right _ (List.mem_flatMap.mpr ⟨p, hpz, hw⟩), ?_⟩
    unfold zipSlices at hw
    obtain ⟨es, _, hes⟩ := List.mem_map.mp hw
    rw [← hes]
    exact rfl
  | false =>
    have hpr : p ∈ files.filter (fun f => !endsWithS f ".zip") :=
      List.mem_filter.mpr ⟨hp, by rw [hpe]; rfl⟩
    have hj := chunksOf_join
      (cdiv (files.filter (fun f => !endsWithS f ".zip")).length n)
      (files.filter (fun f => !endsWithS f ".zip"))
    rw [← hj] at hpr
    obtain ⟨c, hc, hpc⟩ := List.mem_flatten.mp hpr
    exact ⟨WorkItem.files c,
      List.mem_append_left _ (List.mem_map.mpr ⟨c, hc, rfl⟩), hpc⟩

/-- Work items only cover input files (no item mentions a file outside the
planner's input). -/
theorem batches_keys_sub (n : Nat) (fs : FS) (files : List String) :
    ∀ w ∈ canonicalBatches n fs files, ∀ k, itemHasFile w k → k ∈ files := by
  intro w hw k hk
  unfold canonicalBatches at hw
  rcases List.mem_append.mp hw with hw | hw
  · obtain ⟨c, hc, hcw⟩ := List.mem_map.mp hw
    rw [← hcw] at hk
    have hkc : k ∈ c := hk
    exact List.mem_of_mem_filter (mem_of_mem_chunksOf hc hkc)
  · obtain ⟨z, hz, hzw⟩ := List.mem_flatMap.mp hw
    unfold zipSlices at hzw
    obtain ⟨es, _, hes⟩ := List.mem_map.mp hzw
    rw [← hes] at hk
    have hkz : k = z := hk
    rw [hkz]
    exact List.mem_of_mem_filter hz

/-- When every dispatched worker succeeds, the staged partial manifests are
exactly one per work item. -/
theorem stagedManifests_all_ok (fs : FS) (env : XEnv) (wfail : Nat → Bool)
    (batches : List WorkItem)
    (hok : ∀ iw : Nat × WorkItem, (workerOutcome env wfail iw).isOk = true) :
    stagedManifests fs env wfail batches = batches.map (workerManifest fs) := by
  unfold stagedManifests
  show (List.enumFrom 0 batches).filterMap _ = _
  generalize 0 = s
  induction batches generalizing s with
  | nil => rfl
  | cons b bs ih =>
    rw [List.enumFrom]
    rw [List.filterMap_cons]
    rcases hout : workerOutcome env wfail (s, b) with e | v
    · have := hok (s, b)
      rw [hout] at this
      simp [Except.isOk, Except.toBool] at this
    · simp only [Except.toOption, Option.map_some', List.map_cons]
      exact congrArg _ (ih (s + 1))

theorem reindex_scan_empty (n : Nat) (env : XEnv) (wfail : Nat → Bool)
    (force : Bool) (st : PState)
    (h : (scan st.fs force st.manifest).isEmpty = true) :
    reindex n env wfail force st =
      Except.ok ({ summary := emptyResult st.fs st.manifest, newChunks := 0 }, st) := by
  unfold reindex
  rw [if_pos h]

theorem reindex_scan_nonempty (n : Nat) (env : XEnv) (wfail : Nat → Bool)
    (force : Bool) (st : PState) (bd : List WorkItem × Nat)
    (h : (scan st.fs force st.manifest).isEmpty = false)
    (hb : buildBatches n st.fs (scan st.fs force st.manifest) = Except.ok bd) :
    reindex n env wfail force st =
      Except.ok
        ({ summary :=
            (finalizePipeline force bd.2 st.manifest
              (stagedManifests st.fs env wfail bd.1)).1,
           newChunks := chunksTotal env wfail bd.1 },
         { st with
            manifest :=
              (finalizePipeline force bd.2 st.manifest
                (stagedManifests st.fs env wfail bd.1)).2 }) := by
  unfold reindex
  rw [if_neg (by rw [h]; exact Bool.false_ne_true), hb]

/-- After a `force = false` run in which the planner succeeded and every
worker succeeded, the merged manifest holds the current fingerprint of every
document: the selected files were just recorded by their workers, the
unselected ones already matched and were not touched by the merge. -/
theorem manifest_current_after_run (hn : 0 < n) (st : PState) (env : XEnv)
    (wfail : Nat → Bool)
    (hz : ∀ z ∈ st.fs.docs, endsWithS z ".zip" = true → filtEntries st.fs z ≠ [])
    (hok : ∀ iw : Nat × WorkItem, (workerOutcome env wfail iw).isOk = true) :
    ∀ p ∈ st.fs.docs,
      (mergeStaged st.manifest
        (stagedManifests st.fs env wfail
          (canonicalBatches n st.fs (scan st.fs false st.manifest)))).lookup p
        = some (fingerprint st.fs p) := by
  intro p hp
  have hzf : ∀ z ∈ scan st.fs false st.manifest, endsWithS z ".zip" = true →
      filtEntries st.fs z ≠ [] :=
    fun z hzz hze => hz z ((mem_scan_iff st.fs false st.manifest z).mp hzz).1 hze
  rw [stagedManifests_all_ok st.fs env wfail _ hok]
  have hpairs : ∀ pm ∈ (canonicalBatches n st.fs
        (scan st.fs false st.manifest)).map (workerManifest st.fs),
      ∀ kv ∈ pm, kv.2 = fingerprint st.fs kv.1 := by
    intro pm hpm
    obtain ⟨w, _, hweq⟩ := List.mem_map.mp hpm
    rw [← hweq]
    exact workerManifest_pairs st.fs w
  by_cases hsel : p ∈ scan st.fs false st.manifest
  · obtain ⟨w, hw, hwp⟩ :=
      batches_cover hn st.fs (scan st.fs false st.manifest) hzf p hsel
    exact lookup_mergeStaged_mem (fingerprint st.fs) _ _ hpairs
      ⟨workerManifest st.fs w, List.mem_map.mpr ⟨w, hw, rfl⟩,
        (hasKey_workerManifest st.fs w p).mpr hwp⟩
  · have hlk : st.manifest.lookup p = some (fingerprint st.fs p) := by
      by_contra hno
      exact hsel ((mem_scan_iff st.fs false st.manifest p).mpr ⟨hp, Or.inr hno⟩)
    rw [lookup_mergeStaged_not_mem]
    · exact hlk
    · intro pm hpm hkey
      obtain ⟨w, hw, hweq⟩ := List.mem_map.mp hpm
      rw [← hweq] at hkey
      exact hsel (batches_keys_sub n st.fs (scan st.fs false st.manifest) w hw p
        ((hasKey_workerManifest st.fs w p).mp hkey))

/-- A second `force = false` scan over an unchanged store selects nothing
once the manifest is current for every document. -/
theorem scan_nil_of_current (fs : FS) (m : Manifest)
    (hcur : ∀ p ∈ fs.docs, m.lookup p = some (fingerprint fs p)) :
    scan fs false m = [] := by
  unfold scan
  rw [List.filter_eq_nil_iff]
  intro p hp
  simp [hcur p hp]

/-- `N_WORKERS` from `agents/rag_agent/indexer_workers.py` (the staged-merge
path uses 10, unlike `agents/index_pipeline/config.py`'s 8). -/
def N_WORKERS_RAG : Nat := 10

/-- One worker's staged records in the staged-merge path: the list
`all_records` that `EmbedWorker.embed` (indexer_workers.py) pickles to
`/data/rag/pending/worker-id.pkl`.  A record is `(id, payload)`: the chunk
id and its document text (the embedding vector and metadata ride along with
the payload and are elided, as no claim observes them). -/
abbrev Pkl := List (String × String)

/-- Outcome of worker `i` in the staged-merge path: an infrastructure
failure, or success with its record list; on success the reported chunk
count is `len(all_records)`. -/
def iwOutcome (wfail : Nat → Bool) (wrecs : Nat → Pkl) (i : Nat) :
    Except Unit Nat :=
  if wfail i then Except.error () else Except.ok (wrecs i).length

/-- The failed-worker counter accumulated by `IndexClient._fan_out` and
`scripts/index_rag.py`'s dispatch loop over `map(..., return_exceptions=True)`. -/
def failedCount (wres : Nat → Except Unit Nat) (nb : Nat) : Nat :=
  ((List.range nb).filter (fun i => !(wres i).isOk)).length

/-- The successful-chunk total accumulated by the same loops. -/
def chunksSucceeded (wres : Nat → Except Unit Nat) (nb : Nat) : Nat :=
  ((List.range nb).filterMap (fun i => (wres i).toOption)).sum

/-- The degraded-success message of `IndexClient._fan_out` (index_client.py
lines 79–84).  Python renders the chunk count with thousands separators
(`:,`); the model renders plain decimal digits. -/
def failMsg (failed total : Nat) : String :=
  "Embedding failed for " ++ Nat.repr failed ++ " worker(s). "
    ++ Nat.repr total ++ " chunks succeeded. Run reindex again to retry."

/-- The pkl files present under `/data/rag/pending` after the embed phase:
one per worker that ran to completion (a raising worker never reaches
`pickle.dump`). -/
def stagedPkls (wfail : Nat → Bool) (wrecs : Nat → Pkl) (nb : Nat) : List Pkl :=
  (List.range nb).filterMap (fun i =>
    (iwOutcome wfail wrecs i).toOption.map (fun _ => wrecs i))

/-- `finalize_index` from `agents/rag_agent/indexer_workers.py` (lines
136–191): optionally drop the collection on `force`, merge every staged pkl
into the collection by batched idempotent upsert (sequential upsert of the
same records in the same order; the `UPSERT_BATCH` slicing does not change
the final collection), write one manifest entry per file currently present
in the documents directory, remove the staging directory, and return the
summary string.  Returns `(summary, manifest, collection)`. -/
def finalize_index (force : Bool) (fs : FS) (pkls : List Pkl)
    (col : List (String × String)) : String × Manifest × List (String × String) :=
  (("Indexed " ++ Nat.repr ((pkls.map List.length).sum) ++ " chunks from "
      ++ Nat.repr fs.docs.length ++ " file(s)."),
    fs.docs.map (fun p => (p, fingerprint fs p)),
    pkls.foldl (fun c recs => recs.foldl (fun c' r => mput c' r.1 r.2) c)
      (if force then [] else col))

/-- Observables of one `IndexClient.reindex` run: the returned summary, the
dispatcher's failure and chunk counters, and whether execution reached
`finalize_index`. -/
structure ClientOut where
  summary : String
  finalizeRan : Bool
  failed : Nat
  chunks : Nat
deriving DecidableEq, Repr

/-- `IndexClient._run` with `_fan_out` (index_client.py lines 29–86): list
the documents (empty store returns early), dispatch one batch per worker
(`ceil(len/10)` files each), and — only when no worker failed — run
`finalize_index`; a non-zero failure count returns the degraded-success
message instead, skipping finalize. -/
def clientRun (force : Bool) (wfail : Nat → Bool) (wrecs : Nat → Pkl)
    (fs : FS) (col : List (String × String)) : ClientOut :=
  if fs.docs.isEmpty then
    { summary := "No documents found in /data/rag/docs/. Share files via Slack first.",
      finalizeRan := false, failed := 0, chunks := 0 }
  else
    let nb := (chunksOf (cdiv fs.docs.length N_WORKERS_RAG) fs.docs).length
    let f := failedCount (iwOutcome wfail wrecs) nb
    let t := chunksSucceeded (iwOutcome wfail wrecs) nb
    if f ≠ 0 then
      { summary := failMsg f t, finalizeRan := false, failed := f, chunks := t }
    else
      { summary := (finalize_index force fs (stagedPkls wfail wrecs nb) col).1,
        finalizeRan := true, failed := 0, chunks := t }

/-- `scripts/index_rag.py`'s `main` (lines 36–63): the same dispatch, but
`finalize_index` runs unconditionally after the loop, whatever the failure
count; `none` models the empty-store early return. -/
def indexRagMain (force : Bool) (wfail : Nat → Bool) (wrecs : Nat → Pkl)
    (fs : FS) (col : List (String × String)) :
    Option (String × Manifest × List (String × String)) :=
  if fs.docs.isEmpty then none
  else
    some (finalize_index force fs
      (stagedPkls wfail wrecs
        (chunksOf (cdiv fs.docs.length N_WORKERS_RAG) fs.docs).length) col)

theorem stagedPkls_all_failed (wfail : Nat → Bool) (wrecs : Nat → Pkl)
    (nb : Nat) (h : ∀ i, wfail i = true) : stagedPkls wfail wrecs nb = [] := by
  unfold stagedPkls
  rw [List.filterMap_eq_nil_iff]
  intro i _
  unfold iwOutcome
  rw [h i]
  rfl

theorem except_isOk_iff {e : Type} {a : Type} (x : Except e a) :
    x.isOk = true ↔ ∃ v, x = Except.ok v := by
  cases x with
  | error err => simp [Except.isOk, Except.toBool]
  | ok v => simp [Except.isOk, Except.toBool]

theorem except_toOption_eq_some {e : Type} {a : Type} (x : Except e a) (v : a) :
    x.toOption = some v ↔ x = Except.ok v := by
  cases x with
  | error err => simp [Except.toOption]
  | ok w => simp [Except.toOption]

/-- The paths of a files-type work item (`item["paths"]`). -/
def filesPathsOf : WorkItem → Option (List String)
  | WorkItem.files ps => some ps
  | WorkItem.zipEntries _ _ => none

/-- The entry slice a work item carries for archive `z`, if any. -/
def entriesFor (z : String) : WorkItem → Option (List String)
  | WorkItem.zipEntries z' es => if z' = z then some es else none
  | WorkItem.files _ => none

theorem filterMap_filesPathsOf_regular (cs : Nat) (regular : List String) :
    ((chunksOf cs regular).map WorkItem.files).filterMap filesPathsOf =
      chunksOf cs regular := by
  rw [List.filterMap_map]
  have : (filesPathsOf ∘ WorkItem.files) = some := by
    funext c
    rfl
  rw [this, List.filterMap_some]

theorem filterMap_filesPathsOf_zips (n : Nat) (fs : FS) (zs : List String) :
    (zs.flatMap (zipSlices n fs)).filterMap filesPathsOf = [] := by
  rw [List.filterMap_eq_nil_iff]
  intro w hw
  obtain ⟨z, _, hzw⟩ := List.mem_flatMap.mp hw
  unfold zipSlices at hzw
  obtain ⟨es, _, hes⟩ := List.mem_map.mp hzw
  rw [← hes]
  rfl

theorem filterMap_entriesFor_regular (z : String) (cs : Nat)
    (regular : List String) :
    ((chunksOf cs regular).map WorkItem.files).filterMap (entriesFor z) = [] := by
  rw [List.filterMap_eq_nil_iff]
  intro w hw
  obtain ⟨c, _, hcw⟩ := List.mem_map.mp hw
  rw [← hcw]
  rfl

theorem filterMap_entriesFor_self (n : Nat) (fs : FS) (z : String) :
    (zipSlices n fs z).filterMap (entriesFor z) =
      chunksOf (cdiv (filtEntries fs z).length n) (filtEntries fs z) := by
  unfold zipSlices
  rw [List.filterMap_map]
  have : (entriesFor z ∘ WorkItem.zipEntries z) = some := by
    funext es
    show entriesFor z (WorkItem.zipEntries z es) = some es
    have he : entriesFor z (WorkItem.zipEntries z es) =
        if z = z then some es else none := rfl
    rw [he, if_pos rfl]
  rw [this, List.filterMap_some]

theorem filterMap_entriesFor_ne (n : Nat) (fs : FS) {z z' : String}
    (h : z' ≠ z) :
    (zipSlices n fs z').filterMap (entriesFor z) = [] := by
  rw [List.filterMap_eq_nil_iff]
  intro w hw
  unfold zipSlices at hw
  obtain ⟨es, _, hes⟩ := List.mem_map.mp hw
  rw [← hes]
  show entriesFor z (WorkItem.zipEntries z' es) = none
  have he : entriesFor z (WorkItem.zipEntries z' es) =
      if z' = z then some es else none := rfl
  rw [he, if_neg h]

theorem filterMap_entriesFor_not_mem (n : Nat) (fs : FS) {z : String}
    {zs : List String} (h : z ∉ zs) :
    (zs.flatMap (zipSlices n fs)).filterMap (entriesFor z) = [] := by
  induction zs with
  | nil => rfl
  | cons z0 rest ih =>
    rw [List.flatMap_cons, List.filterMap_append]
    rw [filterMap_entriesFor_ne n fs
      (fun he => h (by rw [← he]; exact List.mem_cons_self z0 rest))]
    rw [ih (fun hm => h (List.mem_cons_of_mem _ hm))]
    rfl

theorem filterMap_entriesFor_extract (n : Nat) (fs : FS) (z : String) :
    ∀ (zs : List String), zs.Nodup → z ∈ zs →
      ((zs.flatMap (zipSlices n fs)).filterMap (entriesFor z)).flatten =
        filtEntries fs z := by
  intro zs
  induction zs with
  | nil => intro _ h; simp at h
  | cons z0 rest ih =>
    intro hnd hz
    rw [List.flatMap_cons, List.filterMap_append, List.flatten_append]
    rcases List.mem_cons.mp hz with he | he
    · subst he
      have hnot : z ∉ rest := (List.nodup_cons.mp hnd).1
      rw [filterMap_entriesFor_self, filterMap_entriesFor_not_mem n fs hnot]
      rw [List.flatten_nil, List.append_nil]
      exact chunksOf_join _ _
    · have hne : z0 ≠ z := by
        intro he0
        exact (List.nodup_cons.mp hnd).1 (he0 ▸ he)
      rw [filterMap_entriesFor_ne n fs hne]
      rw [List.flatten_nil, List.nil_append]
      exact ih (List.nodup_cons.mp hnd).2 he

/-- C1: For every input file list and worker-pool size, the WorkItems
produced by `_build_batches` partition the input exactly: concatenating the
path lists of the files-type items reproduces the non-zip input files in
order (hence, for duplicate-free input, no path duplicated and none
omitted), and for every `.zip` input, concatenating its items' entry slices
reproduces that archive's full non-directory entry list (disjointly, at the
list level) — provided the pool is non-empty and every selected archive has
at least one non-directory entry (see the counterexample: an entry-less
archive makes the planner raise instead). -/
theorem buildBatches_partitions_input (n : Nat) (fs : FS) (files : List String)
    (hn : 0 < n) (hnd : files.Nodup)
    (hz : ∀ z ∈ files, endsWithS z ".zip" = true → filtEntries fs z ≠ []) :
    ∃ bs dc, buildBatches n fs files = Except.ok (bs, dc) ∧
      (bs.filterMap filesPathsOf).flatten
        = files.filter (fun f => !endsWithS f ".zip") ∧
      (∀ z ∈ files, endsWithS z ".zip" = true →
        (bs.filterMap (entriesFor z)).flatten = filtEntries fs z) := by
  refine ⟨canonicalBatches n fs files, canonicalCount fs files,
    buildBatches_eq_canonical hn fs files hz, ?_, ?_⟩
  · unfold canonicalBatches
    rw [List.filterMap_append, filterMap_filesPathsOf_regular,
      filterMap_filesPathsOf_zips, List.append_nil]
    exact chunksOf_join _ _
  · intro z hzf hze
    unfold canonicalBatches
    rw [List.filterMap_append, filterMap_entriesFor_regular,
      List.nil_append]
    exact filterMap_entriesFor_extract n fs z _ (hnd.filter _)
      (List.mem_filter.mpr ⟨hzf, hze⟩)

/-- C1 counterexample: on an input holding a regular file and an archive
with no (non-directory) entries, the planner raises — Python's
`range(0, 0, 0)` is a `ValueError` because `math.ceil(0 / n)` makes the
slice step 0 — so no set of WorkItems is produced at all, and in particular
none that covers `"a.txt"`. -/
theorem buildBatches_empty_zip_raises :
    buildBatches 32
      { docs := ["a.txt", "b.zip"], mtimeNs := fun _ => 1,
        size := fun _ => 2, entries := fun _ => [] }
      ["a.txt", "b.zip"] = Except.error () := by
  decide

theorem buildBatches_partitions_input_witness :
    (0 < 4 ∧ (["a.txt", "b.txt", "c.txt", "d.zip"] : List String).Nodup) ∧
    (∃ bs dc, buildBatches 4
        { docs := ["a.txt", "b.txt", "c.txt", "d.zip"], mtimeNs := fun _ => 1,
          size := fun _ => 2,
          entries := fun _ => ["e1", "e2", "e3", "e4", "e5"] }
        ["a.txt", "b.txt", "c.txt", "d.zip"] = Except.ok (bs, dc) ∧
      (bs.filterMap filesPathsOf).flatten
        = (["a.txt", "b.txt", "c.txt", "d.zip"] : List String).filter
            (fun f => !endsWithS f ".zip") ∧
      (∀ z ∈ (["a.txt", "b.txt", "c.txt", "d.zip"] : List String),
        endsWithS z ".zip" = true →
        (bs.filterMap (entriesFor z)).flatten =
          filtEntries
            { docs := ["a.txt", "b.txt", "c.txt", "d.zip"], mtimeNs := fun _ => 1,
              size := fun _ => 2,
              entries := fun _ => ["e1", "e2", "e3", "e4", "e5"] } z)) :=
  ⟨⟨by decide, by decide⟩,
    buildBatches_partitions_input 4 _ _ (by decide) (by decide) (by decide)⟩

/-- C5 amended: the planner's item count is bounded by the pool size for the
regular files plus the pool size for each archive — at most
`n * (1 + number of archives)` in total, and at most `n` when the input has
no archives; the flat `≤ n` bound of the claim fails as soon as regular
files and an archive are both present (see the counterexample). -/
theorem batch_count_bound (n : Nat) (fs : FS) (files : List String)
    (hn : 0 < n)
    (hz : ∀ z ∈ files, endsWithS z ".zip" = true → filtEntries fs z ≠ []) :
    ∃ bs dc, buildBatches n fs files = Except.ok (bs, dc) ∧
      bs.length ≤ n * (1 + (files.filter (fun f => endsWithS f ".zip")).length) ∧
      ((files.filter (fun f => endsWithS f ".zip")) = [] → bs.length ≤ n) := by
  refine ⟨canonicalBatches n fs files, canonicalCount fs files,
    buildBatches_eq_canonical hn fs files hz, ?_, ?_⟩
  · unfold canonicalBatches
    rw [List.length_append, List.length_map]
    have hreg : (chunksOf
        (cdiv (files.filter (fun f => !endsWithS f ".zip")).length n)
        (files.filter (fun f => !endsWithS f ".zip"))).length ≤ n :=
      chunksOf_count_le hn _
    have hzips : ((files.filter (fun f => endsWithS f ".zip")).flatMap
        (zipSlices n fs)).length
        ≤ (files.filter (fun f => endsWithS f ".zip")).length * n := by
      rw [List.length_flatMap]
      have hbound : ∀ x ∈ (files.filter (fun f => endsWithS f ".zip")).map
          (fun z => (zipSlices n fs z).length), x ≤ n := by
        intro x hx
        obtain ⟨z, _, hzx⟩ := List.mem_map.mp hx
        rw [← hzx]
        unfold zipSlices
        rw [List.length_map]
        exact chunksOf_count_le hn _
      calc ((files.filter (fun f => endsWithS f ".zip")).map
            (fun z => (zipSlices n fs z).length)).sum
          ≤ ((files.filter (fun f => endsWithS f ".zip")).map
              (fun z => (zipSlices n fs z).length)).length • n :=
            List.sum_le_card_nsmul _ n hbound
        _ = (files.filter (fun f => endsWithS f ".zip")).length * n := by
            rw [List.length_map, smul_eq_mul]
    calc (chunksOf (cdiv (files.filter (fun f => !endsWithS f ".zip")).length n)
          (files.filter (fun f => !endsWithS f ".zip"))).length
        + ((files.filter (fun f => endsWithS f ".zip")).flatMap
            (zipSlices n fs)).length
        ≤ n + (files.filter (fun f => endsWithS f ".zip")).length * n := by
          omega
      _ = n * (1 + (files.filter (fun f => endsWithS f ".zip")).length) := by
          ring
  · intro hzn
    unfold canonicalBatches
    rw [hzn]
    simp only [List.flatMap_nil, List.append_nil, List.length_map]
    exact chunksOf_count_le hn _

/-- C5 counterexample: with the configured pool `N_WORKERS * WORKERS_PER_GPU
= 32`, an input of 32 regular files plus one single-entry archive yields 33
work items — the regular files alone fill the pool and every archive adds
its own slices on top, so the WorkItem count is not bounded by the
configured maximum parallelism. -/
theorem batch_count_exceeds_pool :
    (buildBatches (N_WORKERS * WORKERS_PER_GPU)
      { docs := (List.range 32).map (fun i => "f" ++ Nat.repr i) ++ ["z.zip"],
        mtimeNs := fun _ => 1, size := fun _ => 1,
        entries := fun _ => ["e1"] }
      ((List.range 32).map (fun i => "f" ++ Nat.repr i) ++ ["z.zip"])).toOption.map
      (fun bd => bd.1.length) = some 33
    ∧ ¬(33 ≤ N_WORKERS * WORKERS_PER_GPU) := by
  decide

theorem batch_count_bound_witness :
    (0 < 4) ∧
    (∃ bs dc, buildBatches 4
        { docs := ["a.txt", "d.zip"], mtimeNs := fun _ => 1,
          size := fun _ => 2, entries := fun _ => ["e1", "e2", "e3"] }
        ["a.txt", "d.zip"] = Except.ok (bs, dc) ∧
      bs.length ≤ 4 * (1 + ((["a.txt", "d.zip"] : List String).filter
        (fun f => endsWithS f ".zip")).length) ∧
      (((["a.txt", "d.zip"] : List String).filter
        (fun f => endsWithS f ".zip")) = [] → bs.length ≤ 4)) :=
  ⟨by decide, batch_count_bound 4 _ _ (by decide) (by decide)⟩

/-- C7: `_scan` selects a file iff `force` is set or the file's manifest
fingerprint (`mtime_ns:size`) is absent or differs from the current one;
consequently changing a file's mtime or size forces re-selection (the
fingerprint encoding is injective), changing neither excludes it, and
`force` selects every listed file regardless of manifest state.  The scan is
a pure function of the listing and the manifest — it returns a selection and
writes nothing. -/
theorem scanner_selection_correct (fs : FS) (m : Manifest) :
    (∀ (force : Bool) (p : String), p ∈ scan fs force m ↔
        p ∈ fs.docs ∧ (force = true ∨ m.lookup p ≠ some (fingerprint fs p)))
    ∧ (∀ p ∈ fs.docs, m.lookup p = some (fingerprint fs p) →
        p ∉ scan fs false m)
    ∧ (∀ p ∈ fs.docs, p ∈ scan fs true m)
    ∧ (∀ (fs' : FS) (p : String), p ∈ fs'.docs →
        m.lookup p = some (fingerprint fs p) →
        (fs.mtimeNs p ≠ fs'.mtimeNs p ∨ fs.size p ≠ fs'.size p) →
        p ∈ scan fs' false m) := by
  refine ⟨fun force p => mem_scan_iff fs force m p, ?_, ?_, ?_⟩
  · intro p _ hcur hmem
    rcases (mem_scan_iff fs false m p).mp hmem with ⟨_, h | h⟩
    · exact Bool.false_ne_true h
    · exact h hcur
  · intro p hp
    exact (mem_scan_iff fs true m p).mpr ⟨hp, Or.inl rfl⟩
  · intro fs' p hp hcur hchange
    refine (mem_scan_iff fs' false m p).mpr ⟨hp, Or.inr ?_⟩
    intro heq
    rw [hcur] at heq
    have hfp : fingerprint fs p = fingerprint fs' p := Option.some.inj heq
    obtain ⟨hm, hs⟩ := fingerprint_inj hfp
    rcases hchange with h | h
    · exact h hm
    · exact h hs

theorem scanner_selection_correct_witness :
    ((("a.txt", "1:2") :: []).lookup "a.txt" =
        some (fingerprint
          { docs := ["a.txt"], mtimeNs := fun _ => 1, size := fun _ => 2,
            entries := fun _ => [] } "a.txt")) ∧
    ("a.txt" ∈ scan
      { docs := ["a.txt"], mtimeNs := fun _ => 9, size := fun _ => 2,
        entries := fun _ => [] } false (("a.txt", "1:2") :: [])) :=
  ⟨by decide,
    (scanner_selection_correct
        { docs := ["a.txt"], mtimeNs := fun _ => 1, size := fun _ => 2,
          entries := fun _ => [] }
        (("a.txt", "1:2") :: [])).2.2.2
      { docs := ["a.txt"], mtimeNs := fun _ => 9, size := fun _ => 2,
        entries := fun _ => [] }
      "a.txt" (by decide) (by decide) (Or.inl (by decide))⟩

/-- C10: for every zip-entries work item, `_write_manifest` records exactly
one entry — the archive's name mapped to the fingerprint of the entire
archive file — independent of which entry slice the item carried; hence any
worker that completes any slice of an archive marks the whole archive as
indexed in its partial manifest. -/
theorem zip_slice_manifests_whole_archive (fs : FS) (z : String)
    (es : List String) :
    workerManifest fs (WorkItem.zipEntries z es) = [(z, fingerprint fs z)] := rfl

/-- C8 amended: for archive entries, an extraction failure (`_read_zip_entry`
returning `None`) or blank content is skipped and never fatal — the embed
call always completes with a `(worker id, chunk count)` result, and the
skipped entry contributes nothing; for regular files, blank content merely
yields zero chunks downstream, but an extraction exception in
`SimpleDirectoryReader` is *not* caught (`_load_file` has no handler) and
aborts the whole work item (see the counterexample), so the embed call
completes only when no regular file's extraction raises. -/
theorem extraction_failure_handling (env : XEnv) :
    (∀ (z : String) (es : List String) (wid : Nat),
      embed env (WorkItem.zipEntries z es) wid =
        Except.ok (wid, embedZipEntries env z es))
    ∧ (∀ (z e : String) (es₁ es₂ : List String),
        (env.readZip z e = none ∨
          (∃ t, env.readZip z e = some t ∧ isBlank t = true)) →
        embedZipEntries env z (es₁ ++ e :: es₂) =
          embedZipEntries env z (es₁ ++ es₂))
    ∧ (∀ (ps : List String) (wid : Nat),
        (∀ p ∈ ps, (env.readFile p).isOk = true) →
        ∃ t, embed env (WorkItem.files ps) wid = Except.ok (wid, t)) := by
  refine ⟨fun z es wid => rfl, ?_, ?_⟩
  · intro z e es₁ es₂ hskip
    unfold embedZipEntries
    have hkept : keptTexts env z (es₁ ++ e :: es₂) = keptTexts env z (es₁ ++ es₂) := by
      unfold keptTexts
      rcases hskip with h | ⟨t, ht, hb⟩
      · simp [List.filterMap_append, List.filterMap_cons, h]
      · simp [List.filterMap_append, List.filterMap_cons, ht, hb]
    rw [hkept]
  · intro ps wid hok
    have hfold : ∀ (acc : Nat) (qs : List String),
        (∀ p ∈ qs, (env.readFile p).isOk = true) →
        ∃ t, qs.foldlM
          (fun acc p => (env.readFile p).map (fun docs => acc + env.nchunks docs))
          acc = Except.ok t := by
      intro acc qs
      induction qs generalizing acc with
      | nil => intro _; exact ⟨acc, rfl⟩
      | cons q qs ih =>
        intro h
        obtain ⟨docs, hq⟩ := (except_isOk_iff (env.readFile q)).mp (h q (by simp))
        rw [List.foldlM_cons]
        have hstep : (env.readFile q).map
            (fun docs => acc + env.nchunks docs) =
            Except.ok (acc + env.nchunks docs) := by
          rw [hq]; rfl
        rw [hstep]
        exact ih (acc + env.nchunks docs)
          (fun p hp => h p (List.mem_cons_of_mem _ hp))
    obtain ⟨t, ht⟩ := hfold 0 ps hok
    refine ⟨t, ?_⟩
    show (embedFiles env ps).map (fun t => (wid, t)) = Except.ok (wid, t)
    unfold embedFiles
    rw [ht]
    rfl

/-- An extraction environment whose reader raises on `bad.txt` only. -/
def failReadEnv : XEnv where
  readFile := fun p => if p = "bad.txt" then Except.error () else Except.ok ["d"]
  readZip := fun _ _ => some "t"
  nchunks := fun l => l.length

/-- An extraction environment whose reader always succeeds. -/
def allOkReadEnv : XEnv where
  readFile := fun _ => Except.ok ["d"]
  readZip := fun _ _ => none
  nchunks := fun l => l.length

/-- C8 counterexample: a files-type work item where one regular file's
extraction raises fails as a whole — `embed` returns an error, not a
`(worker id, chunk count)` result — even though the other file extracts
fine; per-document extraction failure is fatal for regular files. -/
theorem regular_file_extraction_fatal :
    embed failReadEnv (WorkItem.files ["bad.txt", "good.txt"]) 0 =
      Except.error ()
    ∧ failReadEnv.readFile "good.txt" = Except.ok ["d"] := by
  decide

theorem extraction_failure_handling_witness :
    (∀ p ∈ (["ok.txt"] : List String),
      (allOkReadEnv.readFile p).isOk = true) ∧
    (∃ t, embed allOkReadEnv (WorkItem.files ["ok.txt"]) 7 = Except.ok (7, t)) :=
  ⟨by decide,
    (extraction_failure_handling allOkReadEnv).2.2 ["ok.txt"] 7 (by decide)⟩

/-- C2 amended: when exactly one of the N dispatched WorkItems raises, the
run does not abort — `IndexClient._run` returns normally with a summary that
reports the non-zero failed-unit count and retry guidance, and the other
N−1 items' chunk total is carried in the dispatcher's counter — but the
Finalize phase is *skipped* in that run (`_run` returns the failure message
before calling `finalize_index`; the successful items' staged output is
merged only by a later run).  The claim's "Finalize still runs" fails; see
the counterexample. -/
theorem one_failure_degraded_success (force : Bool) (wfail : Nat → Bool)
    (wrecs : Nat → Pkl) (fs : FS) (col : List (String × String))
    (hne : fs.docs.isEmpty = false)
    (hf : failedCount (iwOutcome wfail wrecs)
        (chunksOf (cdiv fs.docs.length N_WORKERS_RAG) fs.docs).length = 1) :
    clientRun force wfail wrecs fs col =
      { summary := failMsg 1 (chunksSucceeded (iwOutcome wfail wrecs)
          (chunksOf (cdiv fs.docs.length N_WORKERS_RAG) fs.docs).length),
        finalizeRan := false, failed := 1,
        chunks := chunksSucceeded (iwOutcome wfail wrecs)
          (chunksOf (cdiv fs.docs.length N_WORKERS_RAG) fs.docs).length } := by
  unfold clientRun
  rw [if_neg (by rw [hne]; exact Bool.false_ne_true)]
  simp only [hf]
  rw [if_pos (by omega : (1 : Nat) ≠ 0)]

/-- C2 counterexample: two documents, two dispatched items, worker 0 raises
and worker 1 succeeds with 2 chunks — the run returns the degraded-success
message with failure count 1, but `finalize_index` is never invoked
(`finalizeRan = false`), contradicting "the Finalize phase still runs and
merges the other N−1 items' output". -/
theorem one_failure_skips_finalize :
    clientRun false (fun i => i == 0) (fun _ => [("id1", "t1"), ("id2", "t2")])
      { docs := ["a.txt", "b.txt"], mtimeNs := fun _ => 1, size := fun _ => 1,
        entries := fun _ => [] } [] =
      { summary := failMsg 1 2, finalizeRan := false, failed := 1, chunks := 2 }
    ∧ (chunksOf (cdiv 2 N_WORKERS_RAG)
        (["a.txt", "b.txt"] : List String)).length = 2 := by
  decide

theorem one_failure_degraded_success_witness :
    (({ docs := ["a.txt", "b.txt"], mtimeNs := fun _ => 1, size := fun _ => 1,
        entries := fun _ => [] } : FS).docs.isEmpty = false ∧
      failedCount (iwOutcome (fun i => i == 0) (fun _ => [("id1", "t1")]))
        (chunksOf (cdiv (["a.txt", "b.txt"] : List String).length N_WORKERS_RAG)
          (["a.txt", "b.txt"] : List String)).length = 1) ∧
    clientRun false (fun i => i == 0) (fun _ => [("id1", "t1")])
      { docs := ["a.txt", "b.txt"], mtimeNs := fun _ => 1, size := fun _ => 1,
        entries := fun _ => [] } [] =
      { summary := failMsg 1 (chunksSucceeded
          (iwOutcome (fun i => i == 0) (fun _ => [("id1", "t1")]))
          (chunksOf (cdiv (["a.txt", "b.txt"] : List String).length N_WORKERS_RAG)
            (["a.txt", "b.txt"] : List String)).length),
        finalizeRan := false, failed := 1,
        chunks := chunksSucceeded
          (iwOutcome (fun i => i == 0) (fun _ => [("id1", "t1")]))
          (chunksOf (cdiv (["a.txt", "b.txt"] : List String).length N_WORKERS_RAG)
            (["a.txt", "b.txt"] : List String)).length } :=
  ⟨⟨by decide, by decide⟩,
    one_failure_degraded_success false (fun i => i == 0) (fun _ => [("id1", "t1")])
      { docs := ["a.txt", "b.txt"], mtimeNs := fun _ => 1, size := fun _ => 1,
        entries := fun _ => [] } [] (by decide) (by decide)⟩

/-- C9 amended: `finalize_index`'s observable result is a function of the
staged pkls, the document listing and `force` alone, with no failure
counter: a run in which every worker failed stages nothing, so Finalize
returns exactly what it returns when nothing is staged because nothing
changed — the same `"Indexed 0 chunks from K file(s)."` summary, the same
manifest and the same collection.  The distinction is visible only
upstream, in the dispatcher's failed-worker counter (here non-zero). -/
theorem finalize_blind_to_failures (force : Bool) (wfail : Nat → Bool)
    (wrecs : Nat → Pkl) (fs : FS) (col : List (String × String))
    (hne : fs.docs.isEmpty = false) (hf : ∀ i, wfail i = true) :
    indexRagMain force wfail wrecs fs col = some (finalize_index force fs [] col)
    ∧ 0 < failedCount (iwOutcome wfail wrecs)
        (chunksOf (cdiv fs.docs.length N_WORKERS_RAG) fs.docs).length := by
  constructor
  · unfold indexRagMain
    rw [if_neg (by rw [hne]; exact Bool.false_ne_true)]
    rw [stagedPkls_all_failed wfail wrecs _ hf]
  · have hdoc : fs.docs ≠ [] := by
      intro hd
      rw [hd] at hne
      simp at hne
    have hnb : 0 < (chunksOf (cdiv fs.docs.length N_WORKERS_RAG) fs.docs).length :=
      List.length_pos.mpr (chunksOf_ne_nil _ _ hdoc)
    unfold failedCount
    have hall : (List.range (chunksOf (cdiv fs.docs.length N_WORKERS_RAG)
        fs.docs).length).filter
        (fun i => !(iwOutcome wfail wrecs i).isOk) =
        List.range (chunksOf (cdiv fs.docs.length N_WORKERS_RAG) fs.docs).length := by
      rw [List.filter_eq_self]
      intro i _
      unfold iwOutcome
      rw [hf i]
      rfl
    rw [hall, List.length_range]
    exact hnb

/-- C9 counterexample: over a two-document store, a run in which both
workers fail reaches Finalize with nothing staged and produces *exactly*
the output of a nothing-staged ("nothing changed") Finalize invocation —
summary `"Indexed 0 chunks from 2 file(s)."`, identical manifest, identical
collection — so the two cases produce the same observable result and
neither the return value nor any counter of `finalize_index` separates
them. -/
theorem finalize_same_output_on_failure :
    indexRagMain false (fun _ => true) (fun _ => [("i", "d")])
      { docs := ["a.txt", "b.txt"], mtimeNs := fun _ => 3, size := fun _ => 4,
        entries := fun _ => [] } [] =
      some (finalize_index false
        { docs := ["a.txt", "b.txt"], mtimeNs := fun _ => 3, size := fun _ => 4,
          entries := fun _ => [] } [] [])
    ∧ (finalize_index false
        { docs := ["a.txt", "b.txt"], mtimeNs := fun _ => 3, size := fun _ => 4,
          entries := fun _ => [] } [] []).1 = "Indexed 0 chunks from 2 file(s)."
    ∧ failedCount (iwOutcome (fun _ => true) (fun _ => [("i", "d")]))
        (chunksOf (cdiv 2 N_WORKERS_RAG) (["a.txt", "b.txt"] : List String)).length
        = 2 := by
  decide

theorem finalize_blind_to_failures_witness :
    (({ docs := ["x.txt"], mtimeNs := fun _ => 1, size := fun _ => 1,
        entries := fun _ => [] } : FS).docs.isEmpty = false ∧
      ∀ i : Nat, (fun _ : Nat => true) i = true) ∧
    (indexRagMain true (fun _ => true) (fun _ => [])
        { docs := ["x.txt"], mtimeNs := fun _ => 1, size := fun _ => 1,
          entries := fun _ => [] } [] =
      some (finalize_index true
        { docs := ["x.txt"], mtimeNs := fun _ => 1, size := fun _ => 1,
          entries := fun _ => [] } [] [])
    ∧ 0 < failedCount (iwOutcome (fun _ => true) (fun _ => []))
        (chunksOf (cdiv (["x.txt"] : List String).length N_WORKERS_RAG)
          (["x.txt"] : List String)).length) :=
  ⟨⟨by decide, fun _ => rfl⟩,
    finalize_blind_to_failures true (fun _ => true) (fun _ => [])
      { docs := ["x.txt"], mtimeNs := fun _ => 1, size := fun _ => 1,
        entries := fun _ => [] } [] (by decide) (fun _ => rfl)⟩

theorem embedFiles_ok (env : XEnv) (h : ∀ p, (env.readFile p).isOk = true)
    (ps : List String) : ∃ t, embedFiles env ps = Except.ok t := by
  unfold embedFiles
  have hfold : ∀ (acc : Nat) (qs : List String),
      ∃ t, qs.foldlM
        (fun acc p => (env.readFile p).map (fun docs => acc + env.nchunks docs))
        acc = Except.ok t := by
    intro acc qs
    induction qs generalizing acc with
    | nil => exact ⟨acc, rfl⟩
    | cons q qs ih =>
      obtain ⟨docs, hq⟩ := (except_isOk_iff (env.readFile q)).mp (h q)
      rw [List.foldlM_cons]
      have hstep : (env.readFile q).map (fun docs => acc + env.nchunks docs) =
          Except.ok (acc + env.nchunks docs) := by
        rw [hq]; rfl
      rw [hstep]
      exact ih (acc + env.nchunks docs)
  exact hfold 0 ps

theorem workerOutcome_all_ok (env : XEnv)
    (h : ∀ p, (env.readFile p).isOk = true) :
    ∀ iw : Nat × WorkItem, (workerOutcome env (fun _ => false) iw).isOk = true := by
  intro iw
  unfold workerOutcome
  rw [if_neg (by simp)]
  cases h2 : iw.2 with
  | files ps =>
    show (embed env (WorkItem.files ps) iw.1).isOk = true
    obtain ⟨t, ht⟩ := embedFiles_ok env h ps
    show ((embedFiles env ps).map (fun t => (iw.1, t))).isOk = true
    rw [ht]
    rfl
  | zipEntries z es => rfl

/-- C6: running `reindex(force=false)` twice with no file changes in between
(the file-system facts `st.fs` are the same for both runs) yields, on the
second run, an immediate empty-scan return: zero new chunks, an untouched
manifest and an unchanged state — provided the pool is non-empty, every
archive has an entry (else the planner of run one raises), and every
dispatched worker of run one succeeds.  The second run's worker environment
is irrelevant (no worker is dispatched). -/
theorem reindex_twice_noop (n : Nat) (env env2 : XEnv) (wfail wfail2 : Nat → Bool)
    (st : PState) (hn : 0 < n)
    (hz : ∀ z ∈ st.fs.docs, endsWithS z ".zip" = true → filtEntries st.fs z ≠ [])
    (hok : ∀ iw : Nat × WorkItem, (workerOutcome env wfail iw).isOk = true) :
    ∃ r1 : RunOut × PState, reindex n env wfail false st = Except.ok r1 ∧
      reindex n env2 wfail2 false r1.2 =
        Except.ok
          ({ summary := emptyResult r1.2.fs r1.2.manifest, newChunks := 0 },
            r1.2) := by
  cases hemp : (scan st.fs false st.manifest).isEmpty with
  | true =>
    exact ⟨({ summary := emptyResult st.fs st.manifest, newChunks := 0 }, st),
      reindex_scan_empty n env wfail false st hemp,
      reindex_scan_empty n env2 wfail2 false st hemp⟩
  | false =>
    have hzf : ∀ z ∈ scan st.fs false st.manifest, endsWithS z ".zip" = true →
        filtEntries st.fs z ≠ [] :=
      fun z hzz hze => hz z ((mem_scan_iff st.fs false st.manifest z).mp hzz).1 hze
    have hb := buildBatches_eq_canonical hn st.fs (scan st.fs false st.manifest) hzf
    refine ⟨_, reindex_scan_nonempty n env wfail false st _ hemp hb, ?_⟩
    have hcur := manifest_current_after_run hn st env wfail hz hok
    have hscan2 : scan st.fs false
        (mergeStaged st.manifest
          (stagedManifests st.fs env wfail
            (canonicalBatches n st.fs (scan st.fs false st.manifest)))) = [] :=
      scan_nil_of_current st.fs _ hcur
    apply reindex_scan_empty
    show (scan st.fs false
      (mergeStaged st.manifest
        (stagedManifests st.fs env wfail
          (canonicalBatches n st.fs (scan st.fs false st.manifest))))).isEmpty = true
    rw [hscan2]
    rfl

/-- Worker environment in which extraction always succeeds. -/
def pipeOkEnv : XEnv where
  readFile := fun _ => Except.ok ["d"]
  readZip := fun _ _ => some "t"
  nchunks := fun l => l.length

/-- A one-document store holding a single regular file. -/
def singleFS : FS where
  docs := ["w.txt"]
  mtimeNs := fun _ => 1
  size := fun _ => 2
  entries := fun _ => []

theorem reindex_twice_noop_witness :
    ((0 < 32) ∧
      (∀ z ∈ singleFS.docs, endsWithS z ".zip" = true →
        filtEntries singleFS z ≠ [])) ∧
    (∃ r1 : RunOut × PState,
      reindex 32 pipeOkEnv (fun _ => false) false
        { fs := singleFS, manifest := [] } = Except.ok r1 ∧
      reindex 32 pipeOkEnv (fun _ => false) false r1.2 =
        Except.ok
          ({ summary := emptyResult r1.2.fs r1.2.manifest, newChunks := 0 },
            r1.2)) :=
  ⟨⟨by decide, by decide⟩,
    reindex_twice_noop 32 pipeOkEnv pipeOkEnv (fun _ => false) (fun _ => false)
      { fs := singleFS, manifest := [] } (by decide) (by decide)
      (workerOutcome_all_ok pipeOkEnv (fun _ => rfl))⟩

/-- C4 amended: after a `force = false` run over an unchanged store, a file
selected by that run is selected again by the next scan *iff* every
WorkItem covering it failed; files covered by at least one successful
WorkItem are skipped because the merged manifest then carries their current
fingerprint.  For regular files "covering item failed" coincides with "the
file's WorkItem failed" (regular files sit in exactly one files item), so
such files are retried; but a zip-entries item records the *whole archive's*
fingerprint, so an archive with one successful and one failed slice is
recorded as indexed and is not re-selected (see the counterexample) — the
claim's "files belonging to the failed WorkItems are selected again" fails
for archives. -/
theorem retry_selection_iff_no_covering_success (n : Nat) (env : XEnv)
    (wfail : Nat → Bool) (st : PState) (hn : 0 < n)
    (hz : ∀ z ∈ st.fs.docs, endsWithS z ".zip" = true → filtEntries st.fs z ≠ [])
    (hne : (scan st.fs false st.manifest).isEmpty = false)
    (p : String) (hp : p ∈ scan st.fs false st.manifest) :
    ∃ r1 : RunOut × PState, reindex n env wfail false st = Except.ok r1 ∧
      (p ∈ scan st.fs false r1.2.manifest ↔
        ∀ iw ∈ (canonicalBatches n st.fs (scan st.fs false st.manifest)).enum,
          itemHasFile iw.2 p → (workerOutcome env wfail iw).isOk = false) := by
  have hzf : ∀ z ∈ scan st.fs false st.manifest, endsWithS z ".zip" = true →
      filtEntries st.fs z ≠ [] :=
    fun z hzz hze => hz z ((mem_scan_iff st.fs false st.manifest z).mp hzz).1 hze
  have hb := buildBatches_eq_canonical hn st.fs (scan st.fs false st.manifest) hzf
  refine ⟨_, reindex_scan_nonempty n env wfail false st _ hne hb, ?_⟩
  show p ∈ scan st.fs false
      (mergeStaged st.manifest
        (stagedManifests st.fs env wfail
          (canonicalBatches n st.fs (scan st.fs false st.manifest)))) ↔ _
  have hpairs := stagedManifests_pairs st.fs env wfail
    (canonicalBatches n st.fs (scan st.fs false st.manifest))
  have hpdocs : p ∈ st.fs.docs :=
    ((mem_scan_iff st.fs false st.manifest p).mp hp).1
  have hold : st.manifest.lookup p ≠ some (fingerprint st.fs p) := by
    rcases (mem_scan_iff st.fs false st.manifest p).mp hp with ⟨_, h | h⟩
    · exact absurd h Bool.false_ne_true
    · exact h
  constructor
  · intro hmem iw hiw hcov
    rcases Bool.eq_false_or_eq_true ((workerOutcome env wfail iw).isOk) with
      htb | hfb
    case inr => exact hfb
    exfalso
    obtain ⟨v, hv⟩ := (except_isOk_iff _).mp htb
    have hsg : workerManifest st.fs iw.2 ∈
        stagedManifests st.fs env wfail
          (canonicalBatches n st.fs (scan st.fs false st.manifest)) := by
      unfold stagedManifests
      exact List.mem_filterMap.mpr ⟨iw, hiw, by rw [hv]; rfl⟩
    have hkey : hasKey (workerManifest st.fs iw.2) p :=
      (hasKey_workerManifest st.fs iw.2 p).mpr hcov
    have hlook := lookup_mergeStaged_mem (fingerprint st.fs) _ st.manifest
      hpairs ⟨_, hsg, hkey⟩
    rcases (mem_scan_iff st.fs false _ p).mp hmem with ⟨_, hc | hc⟩
    · exact Bool.false_ne_true hc
    · exact hc hlook
  · intro hall
    have hnone : ∀ pm ∈ stagedManifests st.fs env wfail
        (canonicalBatches n st.fs (scan st.fs false st.manifest)),
        ¬ hasKey pm p := by
      intro pm hpm hkey
      unfold stagedManifests at hpm
      obtain ⟨iw, hiw, hf⟩ := List.mem_filterMap.mp hpm
      rcases hcase : (workerOutcome env wfail iw).toOption with _ | v
      · rw [hcase] at hf; simp at hf
      · rw [hcase] at hf
        simp only [Option.map_some', Option.some.injEq] at hf
        have hokk : (workerOutcome env wfail iw).isOk = true := by
          rw [(except_toOption_eq_some _ _).mp hcase]
          rfl
        have hcov : itemHasFile iw.2 p :=
          (hasKey_workerManifest st.fs iw.2 p).mp (hf ▸ hkey)
        have hfalse := hall iw hiw hcov
        rw [hokk] at hfalse
        exact Bool.false_ne_true hfalse.symm
    have hmerge := lookup_mergeStaged_not_mem _ st.manifest hnone
    refine (mem_scan_iff st.fs false _ p).mpr ⟨hpdocs, Or.inr ?_⟩
    rw [hmerge]
    exact hold

/-- A store holding one archive with two (non-directory) entries. -/
def archiveFS : FS where
  docs := ["a.zip"]
  mtimeNs := fun _ => 1
  size := fun _ => 10
  entries := fun _ => ["e1", "e2"]

/-- C4 counterexample: one archive, two entry slices, worker 0 (slice
`["e1"]`) fails while worker 1 (slice `["e2"]`) succeeds.  The successful
slice's partial manifest records the whole archive's fingerprint `1:10`, so
after the run the rescan selects *nothing* — the file (`a.zip`) belonging to
the failed WorkItem is not selected again, contradicting the claim. -/
theorem archive_partial_success_not_reselected :
    (reindex 32 pipeOkEnv (fun i => i == 0) false
        { fs := archiveFS, manifest := [] }).toOption.map
      (fun r => (scan archiveFS false r.2.manifest,
        r.2.manifest.lookup "a.zip")) = some ([], some "1:10")
    ∧ (buildBatches 32 archiveFS (scan archiveFS false [])).toOption.map
        (fun bd => bd.1) =
      some [WorkItem.zipEntries "a.zip" ["e1"],
        WorkItem.zipEntries "a.zip" ["e2"]]
    ∧ (fun i : Nat => i == 0) 0 = true := by
  decide

theorem retry_selection_iff_no_covering_success_witness :
    ((0 < 32) ∧ ((scan singleFS false []).isEmpty = false) ∧
      ("w.txt" ∈ scan singleFS false [])) ∧
    (∃ r1 : RunOut × PState,
      reindex 32 pipeOkEnv (fun _ => true) false
        { fs := singleFS, manifest := [] } = Except.ok r1 ∧
      ("w.txt" ∈ scan singleFS false r1.2.manifest ↔
        ∀ iw ∈ (canonicalBatches 32 singleFS (scan singleFS false [])).enum,
          itemHasFile iw.2 "w.txt" →
            (workerOutcome pipeOkEnv (fun _ => true) iw).isOk = false)) :=
  ⟨⟨by decide, by decide, by decide⟩,
    retry_selection_iff_no_covering_success 32 pipeOkEnv (fun _ => true)
      { fs := singleFS, manifest := [] } (by decide) (by decide) (by decide)
      "w.txt" (by decide)⟩
